import Mathlib

/-!
# Verification of the `TemplateEngine` module (template-engine.js)

A shallow embedding of the client-side templating core of the resume-builder
repository, together with theorems settling the frozen claims about it.

Modelling conventions, matching the JavaScript source line by line:

* JS values are the tree type `JSValue`.  Numbers are modelled as exact
  rationals (`Rat`): every numeric literal appearing in the engine or in the
  claims is finite and decimal, so double rounding, `NaN`, `Infinity` and
  `-0` never become observable; tokens such as `Infinity` are outside the
  model and classify as data paths.  Functions are not data values (the
  engine never stores one in a context).
* Strings are `String`/`List Char`; the regex-driven passes are embedded as
  explicit left-to-right scanners with exactly the source regexes'
  matching behaviour (lazy bodies = first later occurrence of the closing
  literal, greedy `\w+`/`\s+` runs, advance by one character on failure,
  replacement text never rescanned by the pass that produced it).
* A JS exception is `Except.error .typeError`; exhaustion of the recursion
  budget of the (genuinely non-terminating in JS) recursive pipeline is the
  separate `Except.error .noFuel`.
* `\w` is `[A-Za-z0-9_]` and `\s` the six ASCII whitespace characters, as in
  JS regexes without the unicode flag applied to the engine's templates.
-/

/-- JS runtime errors the engine can actually raise (property access on
`null`/`undefined`, calling `.replace` on a non-string). -/
inductive JsErr where
  | typeError
  | noFuel
  deriving DecidableEq, Repr

/-- A JavaScript value as the engine sees it: `undefined`, `null`, booleans,
(finite decimal) numbers, strings, arrays and plain objects.  Objects are
association lists; the first binding for a key is the one `Map`-style lookup
returns, so overriding is modelled by prepending. -/
inductive JSValue where
  | undefined
  | null
  | bool (b : Bool)
  | num (q : Rat)
  | str (s : String)
  | arr (xs : List JSValue)
  | obj (es : List (String × JSValue))
  deriving Repr

/-- `v === undefined`, as a pattern match (the embedding avoids relying on
decidable equality of whole values). -/
def isUndefined : JSValue → Bool
  | .undefined => true
  | _ => false

/-- JS truthiness: `undefined`, `null`, `false`, `0` and `""` are falsy;
every object and array (even empty) is truthy. -/
def truthy : JSValue → Bool
  | .undefined => false
  | .null => false
  | .bool b => b
  | .num q => q != 0
  | .str s => s != ""
  | .arr _ => true
  | .obj _ => true

/-- String of a decimal digit sequence for a natural number (JS integer
printing). -/
def natDigits (n : Nat) : String := Nat.repr n

/-- `String(q)` for the engine's numbers.  Integers print as in JS; a
non-integral rational prints its exact numerator/denominator pair, a
placeholder never exercised because no claim observes a non-integral
number's string. -/
def numToString (q : Rat) : String :=
  if q.den = 1 then
    (if q.num < 0 then "-" ++ natDigits q.num.natAbs else natDigits q.num.natAbs)
  else
    (if q.num < 0 then "-" ++ natDigits q.num.natAbs else natDigits q.num.natAbs)
      ++ "/" ++ natDigits q.den

mutual

/-- `String(v)`: JS string conversion.  Arrays join their elements with `,`
(`Array.prototype.toString`), `null`/`undefined` elements joining as empty;
plain objects print `[object Object]`. -/
def jsToString : JSValue → String
  | .undefined => "undefined"
  | .null => "null"
  | .bool true => "true"
  | .bool false => "false"
  | .num q => numToString q
  | .str s => s
  | .arr xs => String.intercalate "," (joinParts xs)
  | .obj _ => "[object Object]"

/-- The element strings of `Array.prototype.join(",")`: `null` and
`undefined` become empty, everything else `String(element)`. -/
def joinParts : List JSValue → List String
  | [] => []
  | x :: r =>
    (match x with
     | .null => ""
     | .undefined => ""
     | v => jsToString v) :: joinParts r
end

/-- JSON string escaping: the two mandatory escapes plus the common control
characters, as `JSON.stringify` emits them. -/
def jsonEscapeChar (c : Char) : String :=
  if c = '"' then "\\\""
  else if c = '\\' then "\\\\"
  else if c = '\n' then "\\n"
  else if c = '\r' then "\\r"
  else if c = '\t' then "\\t"
  else if c = Char.ofNat 8 then "\\b"
  else if c = Char.ofNat 12 then "\\f"
  else String.singleton c

/-- A JSON string literal for `s`. -/
def jsonQuote (s : String) : String :=
  "\"" ++ String.join (s.toList.map jsonEscapeChar) ++ "\""

mutual

/-- `JSON.stringify(v)` on the values the engine serialises.  `undefined`
inside an array prints `null`; an `undefined`-valued object entry is
omitted.  (Top-level `undefined`, where `JSON.stringify` yields no string
at all, is unreachable from the engine's call sites, which guard with
`typeof item === 'object'`.) -/
def jsonStr : JSValue → String
  | .undefined => "null"
  | .null => "null"
  | .bool true => "true"
  | .bool false => "false"
  | .num q => numToString q
  | .str s => jsonQuote s
  | .arr xs => "[" ++ String.intercalate "," (jsonArrElems xs) ++ "]"
  | .obj es => "\x7b" ++ String.intercalate "," (jsonObjPairs es) ++ "\x7d"

/-- Serialised elements of an array, `undefined` rendered as `null`. -/
def jsonArrElems : List JSValue → List String
  | [] => []
  | x :: r =>
    (match x with
     | .undefined => "null"
     | v => jsonStr v) :: jsonArrElems r

/-- Serialised `"key":value` pairs of an object, skipping `undefined`
values as `JSON.stringify` does. -/
def jsonObjPairs : List (String × JSValue) → List String
  | [] => []
  | (_, .undefined) :: r => jsonObjPairs r
  | (k, v) :: r => (jsonQuote k ++ ":" ++ jsonStr v) :: jsonObjPairs r
end

/-- First-match association-list lookup: the observable behaviour of the
engine's `Map.get`, with overriding entries kept at the front. -/
def assocFind {α : Type} : List (String × α) → String → Option α
  | [], _ => none
  | (k, v) :: r, key => if k = key then some v else assocFind r key

/-- Is `k` a canonical array index (`"0"`, or digits without a leading
zero)?  JS arrays expose elements only under canonical numeric keys. -/
def canonIndex : String → Option Nat
  | s =>
    match s.toList with
    | [] => none
    | c :: cs =>
      if (c :: cs).all Char.isDigit then
        if c = '0' && cs ≠ [] then none
        else some (String.toNat! s)
      else none

/-- One property read `v[k]` on a non-nullish value: object entries by key,
arrays and strings expose `length` and canonical indices, primitives have
no own enumerable data properties.  Absent keys give `undefined`. -/
def getProp : JSValue → String → JSValue
  | .obj es, k => (assocFind es k).getD .undefined
  | .arr xs, k =>
    if k = "length" then .num xs.length
    else
      match canonIndex k with
      | some i => (xs.get? i).getD .undefined
      | none => .undefined
  | .str s, k =>
    if k = "length" then .num s.length
    else
      match canonIndex k with
      | some i =>
        match s.toList.get? i with
        | some c => .str (String.singleton c)
        | none => .undefined
      | none => .undefined
  | _, _ => .undefined

/-- `item[prop]` as JS evaluates it bare: reading a property of `null` or
`undefined` throws a `TypeError`; any other value answers `getProp`. -/
def memberAccess : JSValue → String → Except JsErr JSValue
  | .null, _ => .error .typeError
  | .undefined, _ => .error .typeError
  | v, k => .ok (getProp v k)

/-- `path.split('.')` of the source's `getValueByPath`, on character lists:
`"a..b"` splits to `["a","","b"]`, the empty path to `[""]`. -/
def splitDotsGo : List Char → List (List Char)
  | [] => [[]]
  | c :: cs =>
    if c = '.' then [] :: splitDotsGo cs
    else
      match splitDotsGo cs with
      | t :: rest => (c :: t) :: rest
      | [] => [[c]]

/-- One `reduce` step of `getValueByPath`:
`current && current[key] !== undefined ? current[key] : undefined`. -/
def stepPath (cur : JSValue) (k : String) : JSValue :=
  if truthy cur && !isUndefined (getProp cur k) then getProp cur k else .undefined

/-- `getValueByPath(obj, path)`: walk the dot-separated segments, a falsy
intermediate or an absent key making the whole path `undefined`. -/
def getValueByPathL (d : JSValue) (p : List Char) : JSValue :=
  (splitDotsGo p).foldl (fun cur k => stepPath cur (String.mk k)) d

/-- `getValueByPath` on a `String` path (the form helper arguments use). -/
def getValueByPath (d : JSValue) (p : String) : JSValue :=
  getValueByPathL d p.toList

/-! ## Character classes and pass literals

The regex character classes of the source, and the fixed literal pieces of
its patterns.  Braces inside string literals are written with `\x7b`/`\x7d`
escapes throughout. -/

/-- `\w` of a JS regex without the unicode flag: ASCII letters, digits and
underscore. -/
def isWordChar (c : Char) : Bool :=
  ('a' ≤ c && c ≤ 'z') || ('A' ≤ c && c ≤ 'Z') || ('0' ≤ c && c ≤ '9') || c = '_'

/-- `\s` of a JS regex, restricted to its six ASCII members (the engine's
templates never contain the unicode whitespace code points). -/
def jsSpace (c : Char) : Bool :=
  c = ' ' || c = Char.ofNat 9 || c = Char.ofNat 10 || c = Char.ofNat 13 ||
    c = Char.ofNat 11 || c = Char.ofNat 12

/-- `{{`. -/
def bbOpen : List Char := ("\x7b\x7b").toList
/-- `}}`. -/
def bbClose : List Char := ("\x7d\x7d").toList
/-- `{{#each` (the fixed head of the loop regex, before its `\s+`). -/
def eachOpenLit : List Char := ("\x7b\x7b#each").toList
/-- `{{/each}}`. -/
def eachCloseLit : List Char := ("\x7b\x7b/each\x7d\x7d").toList
/-- `{{#if` (the fixed head of both conditional regexes, before `\s+`). -/
def ifOpenLit : List Char := ("\x7b\x7b#if").toList
/-- `{{else}}`. -/
def elseLit : List Char := ("\x7b\x7belse\x7d\x7d").toList
/-- `{{/if}}`. -/
def ifCloseLit : List Char := ("\x7b\x7b/if\x7d\x7d").toList
/-- `{{this.` (the fixed head of the item-property shortcut regex). -/
def thisDotLit : List Char := ("\x7b\x7bthis.").toList
/-- `{{this}}`. -/
def thisLit : List Char := ("\x7b\x7bthis\x7d\x7d").toList

/-! ## Scanning primitives

Small structurally recursive pieces from which each regex's
match-at-a-position test is assembled, each with a decomposition lemma
used both for termination-style bounds and for the pass theorems. -/

/-- Greedy character run: `spanP p s = (longest p-prefix, rest)`. -/
def spanP (p : Char → Bool) (s : List Char) : List Char × List Char :=
  (s.takeWhile p, s.dropWhile p)

/-- Match a fixed literal at the front, returning the rest. -/
def dropLit : List Char → List Char → Option (List Char)
  | [], s => some s
  | _ :: _, [] => none
  | c :: cs, d :: ds => if c = d then dropLit cs ds else none

/-- Does `pre` start the list? -/
def listStartsWith : List Char → List Char → Bool
  | pre, s => (dropLit pre s).isSome

/-- First occurrence of a literal: `splitFirst n s = some (a, b)` with
`s = a ++ n ++ b` and the occurrence leftmost — exactly what a lazy regex
body followed by the literal `n` matches. -/
def splitFirst (n : List Char) : List Char → Option (List Char × List Char)
  | [] =>
    match dropLit n [] with
    | some r => some ([], r)
    | none => none
  | c :: cs =>
    match dropLit n (c :: cs) with
    | some r => some ([], r)
    | none =>
      match splitFirst n cs with
      | some (a, b) => some (c :: a, b)
      | none => none

/-- The maximal run matching `\w+(?:\.\w+)*` after its first character
class has been entered: `flag` records whether a word character was just
read (so a dot may follow).  Greedy with one character of lookahead, which
is exactly the backtracking-free behaviour of the source pattern followed
by `}}`. -/
def chainGo : Bool → List Char → List Char × List Char
  | _, [] => ([], [])
  | inWord, c :: cs =>
    if isWordChar c then
      let (t, r) := chainGo true cs
      (c :: t, r)
    else if inWord then
      if c = '.' then
        match cs with
        | d :: ds =>
          if isWordChar d then
            let (t, r) := chainGo true ds
            (c :: d :: t, r)
          else ([], c :: cs)
        | [] => ([], c :: cs)
      else ([], c :: cs)
    else ([], c :: cs)

/-- Parse `\w+(?:\.\w+)*` at the front; `none` when no word character
starts the input. -/
def parseChain (s : List Char) : Option (List Char × List Char) :=
  match chainGo false s with
  | ([], _) => none
  | (w, r) => some (w, r)

/-- A list that is exactly one dotted identifier path, `\w+(?:\.\w+)*`. -/
def PathOk (p : List Char) : Prop := parseChain p = some (p, [])

instance (p : List Char) : Decidable (PathOk p) := by
  unfold PathOk; infer_instance

/-! ## The per-pass match tests

One function per source regex, testing for a match that starts exactly at
the head of the input and returning the captured pieces plus the input
remaining after the match.  A pass scans by trying the test at every
position from the left, skipping one character on failure — the global
`String.replace` discipline. -/

/-- `\{\{#each\s+(\w+(?:\.\w+)*)\}\}([\s\S]*?)\{\{\/each\}\}` at the head:
captures (path, body). -/
def tryLoopAt (s : List Char) : Option ((List Char × List Char) × List Char) :=
  (dropLit eachOpenLit s).bind fun r0 =>
    if (spanP jsSpace r0).1 = [] then none
    else
      (parseChain (spanP jsSpace r0).2).bind fun pr =>
        (dropLit bbClose pr.2).bind fun r3 =>
          (splitFirst eachCloseLit r3).map fun bc => ((pr.1, bc.1), bc.2)

/-- `\{\{#if\s+(path)\}\}(lazy)\{\{else\}\}(lazy)\{\{\/if\}\}` at the head:
captures (path, then-branch, else-branch). -/
def tryIfElseAt (s : List Char) :
    Option ((List Char × List Char × List Char) × List Char) :=
  (dropLit ifOpenLit s).bind fun r0 =>
    if (spanP jsSpace r0).1 = [] then none
    else
      (parseChain (spanP jsSpace r0).2).bind fun pr =>
        (dropLit bbClose pr.2).bind fun r3 =>
          (splitFirst elseLit r3).bind fun xe =>
            (splitFirst ifCloseLit xe.2).map fun ye =>
              ((pr.1, xe.1, ye.1), ye.2)

/-- `\{\{#if\s+(path)\}\}(lazy)\{\{\/if\}\}` at the head:
captures (path, body). -/
def tryIfAt (s : List Char) : Option ((List Char × List Char) × List Char) :=
  (dropLit ifOpenLit s).bind fun r0 =>
    if (spanP jsSpace r0).1 = [] then none
    else
      (parseChain (spanP jsSpace r0).2).bind fun pr =>
        (dropLit bbClose pr.2).bind fun r3 =>
          (splitFirst ifCloseLit r3).map fun bc => ((pr.1, bc.1), bc.2)

/-- `\{\{(\w+(?:\.\w+)*)\}\}` at the head: captures the path. -/
def tryVarAt (s : List Char) : Option (List Char × List Char) :=
  (dropLit bbOpen s).bind fun r0 =>
    (parseChain r0).bind fun pr =>
      (dropLit bbClose pr.2).map fun r2 => (pr.1, r2)

/-- The `[^}]` character class of the helper regex. -/
def notCloseBrace (c : Char) : Bool := c ≠ '\x7d'

/-- `\{\{(\w+)\s+([^}]+)\}\}` at the head: captures (helper name, raw
argument text, full matched text).  The greedy `\s+`/`[^}]+` interplay of
the source is preserved: when everything before the first `}` is
whitespace, `\s+` backtracks one character and the argument text is that
single whitespace character. -/
def tryHelperAt (s : List Char) :
    Option ((List Char × List Char × List Char) × List Char) :=
  (dropLit bbOpen s).bind fun r0 =>
    if (spanP isWordChar r0).1 = [] then none
    else
      let name := (spanP isWordChar r0).1
      let r1 := (spanP isWordChar r0).2
      if (spanP jsSpace r1).1 = [] then none
      else
        let ws := (spanP jsSpace r1).1
        let r2 := (spanP jsSpace r1).2
        let args := (spanP notCloseBrace r2).1
        let r3 := (spanP notCloseBrace r2).2
        if args = [] then
          -- everything up to the first `}` was whitespace: `[^}]+` takes the
          -- last whitespace character back from `\s+`, which must keep one
          if ws.length < 2 then none
          else
            (dropLit bbClose r3).map fun r4 =>
              ((name, [ws.getLast?.getD ' '],
                bbOpen ++ name ++ ws.dropLast ++ [ws.getLast?.getD ' '] ++ bbClose), r4)
        else
          (dropLit bbClose r3).map fun r4 =>
            ((name, args, bbOpen ++ name ++ ws ++ args ++ bbClose), r4)

/-- `\{\{this\.(\w+)\}\}` at the head: captures the single-segment property
name. -/
def tryThisPropAt (s : List Char) : Option (List Char × List Char) :=
  (dropLit thisDotLit s).bind fun r0 =>
    if (spanP isWordChar r0).1 = [] then none
    else
      (dropLit bbClose (spanP isWordChar r0).2).map fun r2 =>
        ((spanP isWordChar r0).1, r2)

/-- `\{\{this\}\}` at the head. -/
def tryThisLitAt (s : List Char) : Option (Unit × List Char) :=
  (dropLit thisLit s).map fun r => ((), r)

/-! ## The generic pass scanner

`scanGF` walks the template left to right with a fuel of one step per
character: at each position it applies the match test; a hit emits the
captured piece and resumes after the match, a miss emits the literal
character and moves on one — the contract of `String.replace` with a
global regex and non-empty matches. -/

/-- Segment a template into literal characters and matched pieces. -/
def scanGF {π : Type} (tryAt : List Char → Option (π × List Char)) :
    Nat → List Char → List (Char ⊕ π)
  | 0, s => s.map Sum.inl
  | n + 1, s =>
    match tryAt s with
    | some (pc, r) => Sum.inr pc :: scanGF tryAt n r
    | none =>
      match s with
      | [] => []
      | c :: cs => Sum.inl c :: scanGF tryAt n cs

/-- Segment with always-sufficient fuel (every scanner step consumes at
least one character). -/
def scanAll {π : Type} (tryAt : List Char → Option (π × List Char))
    (s : List Char) : List (Char ⊕ π) :=
  scanGF tryAt (s.length + 1) s

/-- Reassemble segments, rendering each matched piece with a pure
replacement function (the replacement is spliced in verbatim, never
rescanned by this pass). -/
def renderSegs {π : Type} (f : π → List Char) : List (Char ⊕ π) → List Char
  | [] => []
  | Sum.inl c :: r => c :: renderSegs f r
  | Sum.inr p :: r => f p ++ renderSegs f r

/-- Reassemble segments with a replacement function that may raise (the
callbacks of the loop and conditional passes recurse into the pipeline). -/
def renderSegsM {π : Type} (f : π → Except JsErr (List Char)) :
    List (Char ⊕ π) → Except JsErr (List Char)
  | [] => .ok []
  | Sum.inl c :: r => do
    let t ← renderSegsM f r
    pure (c :: t)
  | Sum.inr p :: r => do
    let h ← f p
    let t ← renderSegsM f r
    pure (h ++ t)

/-! ## Helper-argument lexing and classification

`parseHelperArgs` first lexes with `/(?:[^\s"]+|"[^"]*")+/g`: a token is a
maximal run of units, a unit being either a run of non-space non-quote
characters or a complete double-quoted span; an unterminated quote starts
no unit and is skipped by the global scan.  Each token is then classified
exactly as the source's `forEach` branch chain does. -/

/-- A character that is not a double quote (`[^"]` of the lexing regex). -/
def notQuote (c : Char) : Bool := c ≠ '"'

/-- A character usable in an unquoted unit (`[^\s"]` of the lexing regex). -/
def tokUnitChar (c : Char) : Bool := !jsSpace c && c ≠ '"'

/-- Grab one token (a maximal unit run) at the head; `([], s)` when no unit
starts here (whitespace, or a quote with no later closing quote).  Fueled by
the input length, one step per unit, each unit consuming at least one
character. -/
def grabTokF : Nat → List Char → List Char × List Char
  | 0, s => ([], s)
  | _ + 1, [] => ([], [])
  | n + 1, c :: cs =>
    if jsSpace c then ([], c :: cs)
    else if c = '"' then
      if (spanP notQuote cs).2 = [] then ([], c :: cs)
      else
        (('"' :: (spanP notQuote cs).1 ++ ['"'])
            ++ (grabTokF n (spanP notQuote cs).2.tail).1,
          (grabTokF n (spanP notQuote cs).2.tail).2)
    else
      ((spanP tokUnitChar (c :: cs)).1
          ++ (grabTokF n (spanP tokUnitChar (c :: cs)).2).1,
        (grabTokF n (spanP tokUnitChar (c :: cs)).2).2)

/-- The token list of the argument text, left to right. -/
def tokenizeF : Nat → List Char → List (List Char)
  | 0, _ => []
  | _ + 1, [] => []
  | n + 1, c :: cs =>
    if jsSpace c then tokenizeF n cs
    else
      if (grabTokF ((c :: cs).length + 1) (c :: cs)).1 = [] then tokenizeF n cs
      else
        (grabTokF ((c :: cs).length + 1) (c :: cs)).1
          :: tokenizeF n (grabTokF ((c :: cs).length + 1) (c :: cs)).2

/-- `argsString.match(/(?:[^\s"]+|"[^"]*")+/g) || []`. -/
def tokenizeArgs (s : List Char) : List (List Char) :=
  tokenizeF (s.length + 1) s

/-- Digit run to a natural number. -/
def digitsToNat (cs : List Char) : Nat :=
  cs.foldl (fun a c => a * 10 + (c.toNat - 48)) 0

/-- The decimal body of a JS numeric string after the optional sign:
`digits [. digits] [e|E [sign] digits]` with at least one digit around the
point.  Returns the exact rational value. -/
def parseDecimalBody (cs : List Char) : Option Rat :=
  match spanP Char.isDigit cs with
  | (ip, rest0) =>
    let (fp, rest1) :=
      match rest0 with
      | '.' :: r =>
        match spanP Char.isDigit r with
        | (f, r2) => (f, r2)
      | _ => ([], rest0)
    if ip = [] ∧ fp = [] ∧ rest0 ≠ [] ∧ rest0.head? = some '.' then none
    else if ip = [] ∧ (rest0.head? ≠ some '.') then none
    else if ip = [] ∧ fp = [] then none
    else
      let mant : Int := (digitsToNat ip * 10 ^ fp.length + digitsToNat fp : Nat)
      let fl : Int := fp.length
      match rest1 with
      | [] => some (mkRat mant (10 ^ fp.length))
      | e :: r2 =>
        if e = 'e' ∨ e = 'E' then
          let (esign, r3) :=
            match r2 with
            | '+' :: r4 => ((1 : Int), r4)
            | '-' :: r4 => ((-1 : Int), r4)
            | _ => ((1 : Int), r2)
          match spanP Char.isDigit r3 with
          | ([], _) => none
          | (ed, r4) =>
            if r4 = [] then
              let ex : Int := esign * (digitsToNat ed : Int) - fl
              if 0 ≤ ex then some ((mant * 10 ^ ex.toNat : Int) : Rat)
              else some (mkRat mant (10 ^ (-ex).toNat))
            else none
        else none

/-- Hexadecimal digit value, `none` for other characters. -/
def hexVal (c : Char) : Option Nat :=
  if '0' ≤ c ∧ c ≤ '9' then some (c.toNat - 48)
  else if 'a' ≤ c ∧ c ≤ 'f' then some (c.toNat - 87)
  else if 'A' ≤ c ∧ c ≤ 'F' then some (c.toNat - 55)
  else none

/-- Digit run in a radix, `none` on an invalid digit or empty run. -/
def radixToNat (radix : Nat) (cs : List Char) : Option Nat :=
  match cs with
  | [] => none
  | _ =>
    cs.foldl
      (fun acc c =>
        match acc, hexVal c with
        | some a, some v => if v < radix then some (a * radix + v) else none
        | _, _ => none)
      (some 0)

/-- `Number(s)` on the strings the model covers: whitespace-trimmed; empty
means `0`; `0x`/`0o`/`0b` integer literals (signless, as in JS); otherwise
an optionally signed decimal literal.  `none` is `NaN`; the non-finite
spellings (`Infinity`) are outside the model. -/
def parseJsNumber (s : List Char) : Option Rat :=
  let t := ((spanP jsSpace s).2.reverse.dropWhile jsSpace).reverse
  match t with
  | [] => some 0
  | '0' :: x :: rest =>
    if x = 'x' ∨ x = 'X' then (radixToNat 16 rest).map (fun n => (n : Rat))
    else if x = 'o' ∨ x = 'O' then (radixToNat 8 rest).map (fun n => (n : Rat))
    else if x = 'b' ∨ x = 'B' then (radixToNat 2 rest).map (fun n => (n : Rat))
    else parseDecimalBody t
  | '+' :: rest => parseDecimalBody rest
  | '-' :: rest => (parseDecimalBody rest).map (fun q => -q)
  | _ => parseDecimalBody t

/-- Classify one lexed token, with the source's branch order: a token both
starting and ending with a double quote is the enclosed string; then the
literals `true`/`false`; then any numeric-looking token (`!isNaN(part)`)
is a number; everything else is resolved as a data path. -/
def classifyArg (d : JSValue) (t : List Char) : JSValue :=
  if t.head? = some '"' ∧ t.getLast? = some '"' then
    .str (String.mk ((t.drop 1).dropLast))
  else if t = ("true").toList then .bool true
  else if t = ("false").toList then .bool false
  else
    match parseJsNumber t with
    | some q => .num q
    | none => getValueByPathL d t

/-- `parseHelperArgs(argsString, data)`: lex, then classify each token. -/
def parseHelperArgs (d : JSValue) (args : List Char) : List JSValue :=
  (tokenizeArgs args).map (classifyArg d)

/-! ## The current-item shortcuts of the loop pass

Before recursing, the loop body is rewritten twice: `{{this.prop}}` through
a callback reading `item[prop]` bare (which is where a `null` item throws),
then `{{this}}` by a plain replacement string, which is subject to the
`$`-pattern expansion of `String.replace`. -/

/-- `typeof v === 'object'` (true for `null`, arrays and objects). -/
def typeofIsObject : JSValue → Bool
  | .null => true
  | .arr _ => true
  | .obj _ => true
  | _ => false

/-- `$`-pattern expansion of a replacement STRING (not callback): `$$`,
`$&` (the match), backtick form (text before the match), apostrophe form
(text after); anything else after `$` stays literal, as with `$1` when the
pattern has no capture groups. -/
def dollarExpand (matched before after : List Char) : List Char → List Char
  | [] => []
  | ['$'] => ['$']
  | '$' :: c :: rest =>
    if c = '$' then '$' :: dollarExpand matched before after rest
    else if c = '&' then matched ++ dollarExpand matched before after rest
    else if c = Char.ofNat 96 then before ++ dollarExpand matched before after rest
    else if c = Char.ofNat 39 then after ++ dollarExpand matched before after rest
    else '$' :: c :: dollarExpand matched before after rest
  | c :: rest => c :: dollarExpand matched before after rest

/-- Reassemble the original text from `{{this}}` segments (used for the
after-the-match context of `$`-expansion). -/
def flattenThisSegs : List (Char ⊕ Unit) → List Char
  | [] => []
  | Sum.inl c :: r => c :: flattenThisSegs r
  | Sum.inr _ :: r => thisLit ++ flattenThisSegs r

/-- Render the `{{this}}` segments, tracking the original prefix so the
positional `$`-patterns see the source string as JS does. -/
def renderThisSegs (repl : List Char) : List Char → List (Char ⊕ Unit) → List Char
  | _, [] => []
  | pre, Sum.inl c :: r => c :: renderThisSegs repl (pre ++ [c]) r
  | pre, Sum.inr _ :: r =>
    dollarExpand thisLit pre (flattenThisSegs r) repl
      ++ renderThisSegs repl (pre ++ thisLit) r

/-- `content.replace(/\{\{this\}\}/g, repl)` with `repl` a replacement
string. -/
def replaceThisLit (repl content : List Char) : List Char :=
  renderThisSegs repl [] (scanAll tryThisLitAt content)

/-- `content.replace(/\{\{this\.(\w+)\}\}/g, (m, prop) => item[prop] !==
undefined ? item[prop] : '')` — the bare `item[prop]` read throws on a
`null`/`undefined` item, and a defined value is spliced in as its string
conversion (callback results are stringified). -/
def replaceThisProps (item : JSValue) (content : List Char) :
    Except JsErr (List Char) :=
  renderSegsM
    (fun prop => do
      let v ← memberAccess item (String.mk prop)
      pure (if isUndefined v then [] else (jsToString v).toList))
    (scanAll tryThisPropAt content)

/-! ## The evaluator -/

/-- The evaluator instance: its two registries.  Helper functions are total
value functions (the claims quantify over them; none of the settled claims
depends on a helper itself throwing). -/
structure TemplateEngine where
  templates : List (String × JSValue)
  helpers : List (String × (List JSValue → JSValue))

/-- `registerHelper`: overwrite-by-name, modelled by prepending under
first-match lookup. -/
def registerHelper (e : TemplateEngine) (name : String)
    (fn : List JSValue → JSValue) : TemplateEngine :=
  { e with helpers := (name, fn) :: e.helpers }

/-- `registerTemplate`: overwrite-by-name. -/
def registerTemplate (e : TemplateEngine) (name : String)
    (tmpl : JSValue) : TemplateEngine :=
  { e with templates := (name, tmpl) :: e.templates }

/-- The loop scope of one iteration: `{...data, this: item, '@index': i,
'@first': i === 0, '@last': i === items.length - 1}`.  Spread order puts the
enclosing context's entries last here because lookup is first-match, which
gives the same observable map as JS's later-keys-override spread. -/
def mkScope (d : JSValue) (item : JSValue) (i : Nat) (len : Nat) : JSValue :=
  .obj ((("this"), item)
    :: (("@index"), .num (i : Rat))
    :: (("@first"), .bool (i == 0))
    :: (("@last"), .bool (i == len - 1))
    :: spreadEntries d)
where
  /-- The enumerable own entries `{...d}` spreads: an object's entries, an
  array's or string's indexed elements (`length` is not enumerable),
  nothing for primitives. -/
  spreadEntries : JSValue → List (String × JSValue)
    | .obj es => es
    | .arr xs => xs.enum.map (fun ie => (natDigits ie.1, ie.2))
    | .str s => s.toList.enum.map (fun ie => (natDigits ie.1, .str (String.singleton ie.2)))
    | _ => []

/-- The recursive-pipeline type threaded through the block passes. -/
abbrev Rec := JSValue → List Char → Except JsErr (List Char)

/-- `processLoops`: expand every `{{#each path}}body{{/each}}` region.  A
non-array value empties the region; an array renders each element by the
two textual `this`-shortcuts followed by the full pipeline under the
iteration scope, concatenated in order. -/
def processLoops (rec : Rec) (d : JSValue) (t : List Char) :
    Except JsErr (List Char) :=
  renderSegsM
    (fun pc =>
      match pc with
      | (p, content) =>
        match getValueByPathL d p with
        | .arr items => do
          let outs ← items.enum.mapM
            (fun ie =>
              match ie with
              | (i, item) => do
                let c1 ← replaceThisProps item content
                let c2 := replaceThisLit
                  ((if typeofIsObject item then jsonStr item else jsToString item)).toList c1
                rec (mkScope d item i items.length) c2)
          pure outs.flatten
        | _ => pure [])
    (scanAll tryLoopAt t)

/-- The first conditional sub-pass: every
`{{#if p}}X{{else}}Y{{/if}}` region becomes its recursively processed
selected branch. -/
def ifElsePass (rec : Rec) (d : JSValue) (t : List Char) :
    Except JsErr (List Char) :=
  renderSegsM
    (fun pc =>
      match pc with
      | (p, x, y) => if truthy (getValueByPathL d p) then rec d x else rec d y)
    (scanAll tryIfElseAt t)

/-- The second conditional sub-pass: every `{{#if p}}X{{/if}}` region
becomes its recursively processed body, or nothing. -/
def ifPass (rec : Rec) (d : JSValue) (t : List Char) :
    Except JsErr (List Char) :=
  renderSegsM
    (fun pc =>
      match pc with
      | (p, x) => if truthy (getValueByPathL d p) then rec d x else pure [])
    (scanAll tryIfAt t)

/-- `processConditionals`: first every if/else region, then — over the
resulting string, including the first sub-pass's replacements — every bare
if region.  The selected branch is recursively pipeline-processed against
the same context. -/
def processConditionals (rec : Rec) (d : JSValue) (t : List Char) :
    Except JsErr (List Char) := do
  let t1 ← ifElsePass rec d t
  ifPass rec d t1

/-- The variable pass's per-construct output: empty for a nullish value, a
JSON serialisation for objects and arrays, plain string conversion
otherwise. -/
def serializeVar (v : JSValue) : List Char :=
  match v with
  | .undefined => []
  | .null => []
  | .arr _ => (jsonStr v).toList
  | .obj _ => (jsonStr v).toList
  | v2 => (jsToString v2).toList

/-- `processVariables`: substitute every `{{dotted.path}}`. -/
def processVariables (d : JSValue) (t : List Char) : List Char :=
  renderSegs
    (fun p =>
      -- the source first returns the match untouched for paths beginning
      -- with `#` or `/`; `\w` cannot capture one, so the branch is
      -- unreachable and kept only for line-by-line fidelity
      if p.head?.any (fun c => c = '#' || c = '/') then bbOpen ++ p ++ bbClose
      else serializeVar (getValueByPathL d p))
    (scanAll tryVarAt t)

/-- `processHelpers`: substitute every `{{name args}}`; an unregistered
name leaves the matched text completely unmodified, a registered helper is
applied to the classified arguments and its result stringified. -/
def processHelpers (e : TemplateEngine) (d : JSValue) (t : List Char) :
    List Char :=
  renderSegs
    (fun pc =>
      match pc with
      | (name, args, matched) =>
        match assocFind e.helpers (String.mk name) with
        | none => matched
        | some f => (jsToString (f (parseHelperArgs d args))).toList)
    (scanAll tryHelperAt t)

/-- `processTemplate`: the fixed four-pass pipeline — loops, conditionals,
variables, helpers — each pass consuming the previous pass's output.  The
fuel bounds the block-recursion depth; the source recursion is genuinely
unbounded (a loop item whose text re-contains its own loop can diverge), so
exhaustion is the distinguished non-JS outcome `noFuel`. -/
def processTemplate : Nat → TemplateEngine → JSValue → List Char →
    Except JsErr (List Char)
  | 0, _, _, _ => .error .noFuel
  | n + 1, e, d, t => do
    let a ← processLoops (fun d2 t2 => processTemplate n e d2 t2) d t
    let b ← processConditionals (fun d2 t2 => processTemplate n e d2 t2) d a
    let c := processVariables d b
    pure (processHelpers e d c)

/-- `render(templateName, data)`: a registered (and truthy) entry supplies
`template.html || template` as markup, anything else means the argument
itself is the markup; the pipeline then runs on the markup, which throws a
`TypeError` when the markup is not a string (`.replace` on a non-string). -/
def render (fuel : Nat) (e : TemplateEngine) (templateName : String)
    (data : JSValue) : Except JsErr String :=
  let markup : JSValue :=
    match assocFind e.templates templateName with
    | some tmpl =>
      if truthy tmpl then
        (if truthy (getProp tmpl ("html")) then getProp tmpl ("html") else tmpl)
      else .str templateName
    | none => .str templateName
  match markup with
  | .str s => (processTemplate fuel e data s.toList).map String.mk
  | _ => .error .typeError

/-- `compile(templateString)`: the returned closure captures the evaluator
instance, so the engine (with its registries as they stand at CALL time) is
an argument of the compiled function, not baked in at compile time. -/
def compile (templateString : String) :
    TemplateEngine → Nat → JSValue → Except JsErr String :=
  fun e fuel d => (processTemplate fuel e d templateString.toList).map String.mk

/-! ## Laws of the scanning primitives

Decomposition and composition lemmas: each primitive consumes a prefix
and leaves a suffix, literal prefixes match themselves, greedy runs and
first-occurrence splits behave on concatenations built from clean parts.
These drive every pass theorem below. -/

theorem dropLit_self (lit r : List Char) : dropLit lit (lit ++ r) = some r := by
  induction lit with
  | nil => rfl
  | cons c cs ih => simp [dropLit, ih]

theorem dropLit_some_eq :
    ∀ (lit s r : List Char), dropLit lit s = some r → s = lit ++ r := by
  intro lit
  induction lit with
  | nil => intro s r h; simp [dropLit] at h; simp [h]
  | cons c cs ih =>
    intro s r h
    cases s with
    | nil => simp [dropLit] at h
    | cons d ds =>
      by_cases hc : c = d
      · subst hc
        simp [dropLit] at h
        simpa using ih ds r h
      · simp [dropLit, hc] at h

/-- `HeadNot p b`: the first character of `b` (if any) fails `p`, so a
greedy `p`-run cannot cross into `b`. -/
def HeadNot (p : Char → Bool) : List Char → Prop
  | [] => True
  | c :: _ => p c = false

theorem spanP_eq {p : Char → Bool} {s a b : List Char}
    (h : spanP p s = (a, b)) : s = a ++ b := by
  rw [spanP] at h
  have h1 : s.takeWhile p = a := congrArg Prod.fst h
  have h2 : s.dropWhile p = b := congrArg Prod.snd h
  rw [← h1, ← h2, List.takeWhile_append_dropWhile]

theorem spanP_append {p : Char → Bool} :
    ∀ {a b : List Char}, (∀ c ∈ a, p c = true) → HeadNot p b →
      spanP p (a ++ b) = (a, b) := by
  intro a
  induction a with
  | nil =>
    intro b _ hb
    cases b with
    | nil => rfl
    | cons c cs =>
      have hc : p c = false := hb
      simp [spanP, List.takeWhile_cons, List.dropWhile_cons, hc]
  | cons c cs ih =>
    intro b ha hb
    have hc : p c = true := ha c (by simp)
    have h2 := ih (fun x hx => ha x (by simp [hx])) hb
    have h3 : (cs ++ b).takeWhile p = cs := congrArg Prod.fst h2
    have h4 : (cs ++ b).dropWhile p = b := congrArg Prod.snd h2
    simp [spanP, List.takeWhile_cons, List.dropWhile_cons, hc, h3, h4]

theorem splitFirst_some_eq {n : List Char} :
    ∀ {s a b : List Char}, splitFirst n s = some (a, b) → s = a ++ n ++ b := by
  intro s
  induction s with
  | nil =>
    intro a b h
    cases hd : dropLit n [] with
    | some r =>
      have he := dropLit_some_eq n [] r hd
      simp [splitFirst, hd] at h
      obtain ⟨h1, h2⟩ := h
      subst h1
      subst h2
      simpa using he
    | none => simp [splitFirst, hd] at h
  | cons c cs ih =>
    intro a b h
    cases hd : dropLit n (c :: cs) with
    | some r =>
      have he := dropLit_some_eq n (c :: cs) r hd
      simp [splitFirst, hd] at h
      obtain ⟨h1, h2⟩ := h
      subst h1
      subst h2
      simpa using he
    | none =>
      cases hs : splitFirst n cs with
      | some ab =>
        cases ab with
        | mk a2 b2 =>
          have he := ih hs
          simp [splitFirst, hd, hs] at h
          obtain ⟨h1, h2⟩ := h
          subst h1
          subst h2
          simp [he]
      | none => simp [splitFirst, hd, hs] at h

theorem splitFirst_none_suffix {n : List Char} :
    ∀ {s : List Char}, splitFirst n s = none →
      ∀ {t : List Char}, t <:+ s → splitFirst n t = none := by
  intro s
  induction s with
  | nil =>
    intro h t ht
    rw [List.suffix_nil.mp ht]
    exact h
  | cons c cs ih =>
    intro h t ht
    have hd : dropLit n (c :: cs) = none := by
      cases hd : dropLit n (c :: cs) with
      | some r => simp [splitFirst, hd] at h
      | none => rfl
    have hs : splitFirst n cs = none := by
      cases hs : splitFirst n cs with
      | some ab => cases ab with | mk a2 b2 => simp [splitFirst, hd, hs] at h
      | none => rfl
    rcases List.suffix_cons_iff.mp ht with h1 | h2
    · rw [h1]; exact h
    · exact ih hs h2

/-- A prefix-consuming step leaves a suffix: from a decomposition
`s = a ++ b`, the rest `b` is a suffix of `s`. -/
theorem suffix_of_decomp {s a b : List Char} (h : s = a ++ b) : b <:+ s := by
  rw [h]; exact List.suffix_append a b

/-! ## Laws of the dotted-path parser -/

/-- `ChainStop r`: the first character of `r` can extend no path chain
(not a word character, not a dot).  Every closing `}}` satisfies it. -/
def ChainStop : List Char → Prop
  | [] => True
  | c :: _ => isWordChar c = false ∧ c ≠ '.'

theorem chainGo_stop {s : List Char} (h : ChainStop s) :
    ∀ flag, chainGo flag s = ([], s) := by
  intro flag
  cases s with
  | nil => cases flag <;> rfl
  | cons c cs =>
    obtain ⟨hw, hd⟩ := h
    cases flag <;> cases cs <;> simp [chainGo, hw, hd]

theorem chainGo_cons_word {flag : Bool} {c : Char} {cs : List Char}
    (h : isWordChar c = true) :
    chainGo flag (c :: cs) =
      (c :: (chainGo true cs).1, (chainGo true cs).2) := by
  cases cs with
  | nil => simp [chainGo, h]
  | cons d ds =>
    cases h2 : chainGo true (d :: ds) with
    | mk t r => simp [chainGo, h, h2]

/-- The dot step of the chain, in closed form. -/
theorem chainGo_cons_dot {c d : Char} {ds : List Char}
    (hw : isWordChar c = false) (hc : c = '.') (hd : isWordChar d = true) :
    chainGo true (c :: d :: ds) =
      (c :: d :: (chainGo true ds).1, (chainGo true ds).2) := by
  subst hc
  cases h2 : chainGo true ds with
  | mk t r => simp [chainGo, hw, hd, h2]

theorem chainGo_append_stop {r : List Char} (hstop : ChainStop r) :
    ∀ (n : Nat) (p : List Char) (flag : Bool), p.length ≤ n →
      chainGo flag p = (p, []) → chainGo flag (p ++ r) = (p, r) := by
  intro n
  induction n with
  | zero =>
    intro p flag hlen h
    have hp : p = [] := List.length_eq_zero.mp (Nat.le_zero.mp hlen)
    subst hp
    simpa using chainGo_stop hstop flag
  | succ n ih =>
    intro p flag hlen h
    cases p with
    | nil => simpa using chainGo_stop hstop flag
    | cons c cs =>
      by_cases hw : isWordChar c = true
      · rw [chainGo_cons_word hw] at h
        have h1 : (chainGo true cs).1 = cs := by
          have := congrArg Prod.fst h
          simpa using this
        have h2 : (chainGo true cs).2 = ([] : List Char) := congrArg Prod.snd h
        have hcs : chainGo true cs = (cs, []) := Prod.ext_iff.mpr ⟨h1, h2⟩
        have hlen2 : cs.length ≤ n := by simp at hlen; omega
        have hrec := ih cs true hlen2 hcs
        rw [List.cons_append, chainGo_cons_word hw, hrec]
      · have hw' : isWordChar c = false := by simpa using hw
        cases flag with
        | false =>
          have hfalse : chainGo false (c :: cs) = ([], c :: cs) := by
            cases cs <;> simp [chainGo, hw']
          rw [hfalse] at h
          exact absurd (congrArg Prod.fst h).symm (List.cons_ne_nil c cs)
        | true =>
          by_cases hdot : c = '.'
          · cases cs with
            | nil =>
              have hone : chainGo true [c] = ([], [c]) := by simp [chainGo, hw']
              rw [hone] at h
              exact absurd (congrArg Prod.fst h).symm (List.cons_ne_nil c [])
            | cons d ds =>
              by_cases hd : isWordChar d = true
              · rw [chainGo_cons_dot hw' hdot hd] at h
                have h1 : (chainGo true ds).1 = ds := by
                  have := congrArg Prod.fst h
                  simpa using this
                have h2 : (chainGo true ds).2 = ([] : List Char) := congrArg Prod.snd h
                have hds : chainGo true ds = (ds, []) := Prod.ext_iff.mpr ⟨h1, h2⟩
                have hlen2 : ds.length ≤ n := by simp at hlen; omega
                have hrec := ih ds true hlen2 hds
                rw [List.cons_append, List.cons_append, chainGo_cons_dot hw' hdot hd, hrec]
              · have hd' : isWordChar d = false := by simpa using hd
                subst hdot
                have hng : chainGo true ('.' :: d :: ds) = ([], '.' :: d :: ds) := by
                  simp [chainGo, hw', hd']
                rw [hng] at h
                exact absurd (congrArg Prod.fst h).symm (List.cons_ne_nil _ _)
          · have hng := chainGo_stop (s := c :: cs) ⟨hw', hdot⟩ true
            rw [hng] at h
            exact absurd (congrArg Prod.fst h).symm (List.cons_ne_nil c cs)

theorem parseChain_some {s w r : List Char} (h : parseChain s = some (w, r)) :
    chainGo false s = (w, r) ∧ w ≠ [] := by
  unfold parseChain at h
  cases hg : chainGo false s with
  | mk a b =>
    rw [hg] at h
    cases a with
    | nil => simp at h
    | cons x xs =>
      simp at h
      obtain ⟨h1, h2⟩ := h
      subst h1
      subst h2
      exact ⟨rfl, List.cons_ne_nil x xs⟩

/-- A well-formed path followed by a chain-stopping rest parses to exactly
that path; the closing braces of every construct are chain stops. -/
theorem pathOk_parse {p r : List Char} (hp : PathOk p) (hstop : ChainStop r) :
    parseChain (p ++ r) = some (p, r) := by
  obtain ⟨hg, hne⟩ := parseChain_some hp
  have hfull := chainGo_append_stop hstop p.length p false le_rfl hg
  unfold parseChain
  rw [hfull]
  cases p with
  | nil => exact absurd rfl hne
  | cons c cs => rfl

theorem pathOk_head {p : List Char} (hp : PathOk p) :
    ∃ c cs, p = c :: cs ∧ isWordChar c = true := by
  obtain ⟨hg, hne⟩ := parseChain_some hp
  cases p with
  | nil => exact absurd rfl hne
  | cons c cs =>
    refine ⟨c, cs, rfl, ?_⟩
    by_contra hw
    have hw' : isWordChar c = false := by simpa using hw
    have hng : chainGo false (c :: cs) = ([], c :: cs) := by
      cases cs <;> simp [chainGo, hw']
    rw [hng] at hg
    exact absurd (congrArg Prod.fst hg).symm (List.cons_ne_nil c cs)

/-! ## Character-class separations -/

theorem word_not_space {c : Char} (h : isWordChar c = true) : jsSpace c = false := by
  by_contra hsp
  rw [Bool.not_eq_false] at hsp
  simp only [jsSpace, Bool.or_eq_true, decide_eq_true_eq] at hsp
  rcases hsp with ((((rfl | rfl) | rfl) | rfl) | rfl) | rfl <;> revert h <;> decide

theorem word_not_marker {c : Char} (h : isWordChar c = true) :
    c ≠ '#' ∧ c ≠ '/' := by
  constructor <;> rintro rfl <;> revert h <;> decide

/-! ## Laws of the generic pass scanner -/

theorem scanGF_nil {π : Type} (tryAt : List Char → Option (π × List Char))
    (h : tryAt [] = none) : ∀ n, scanGF tryAt n [] = [] := by
  intro n
  cases n with
  | zero => rfl
  | succ n => simp [scanGF, h]

/-- A match test succeeding at the head and consuming the whole template
makes the scan a single matched piece. -/
theorem scanAll_single {π : Type} {tryAt : List Char → Option (π × List Char)}
    {s : List Char} {pc : π} (h : tryAt s = some (pc, []))
    (h0 : tryAt [] = none) : scanAll tryAt s = [Sum.inr pc] := by
  unfold scanAll
  simp [scanGF, h, scanGF_nil tryAt h0]

theorem renderSegs_single {π : Type} (f : π → List Char) (pc : π) :
    renderSegs f [Sum.inr pc] = f pc := by
  simp [renderSegs]

theorem renderSegsM_single {π : Type} (f : π → Except JsErr (List Char))
    (pc : π) : renderSegsM f [Sum.inr pc] = f pc := by
  cases hf : f pc <;> simp [renderSegsM, hf, Except.bind] <;> rfl

/-- A match test failing at every suffix position leaves the scan all
literal. -/
theorem scanGF_all_inl {π : Type} {tryAt : List Char → Option (π × List Char)} :
    ∀ (s : List Char), (∀ s2 : List Char, s2 <:+ s → tryAt s2 = none) →
      ∀ n, scanGF tryAt n s = s.map Sum.inl := by
  intro s
  induction s with
  | nil =>
    intro h n
    cases n with
    | zero => rfl
    | succ n => simp [scanGF, h [] (List.suffix_refl [])]
  | cons c cs ih =>
    intro h n
    cases n with
    | zero => rfl
    | succ n =>
      have h0 : tryAt (c :: cs) = none := h (c :: cs) (List.suffix_refl _)
      have hrest := ih (fun s2 hs2 => h s2 (hs2.trans (List.suffix_cons c cs))) n
      simp [scanGF, h0, hrest]

theorem renderSegs_map_inl {π : Type} (f : π → List Char) :
    ∀ s : List Char, renderSegs f (s.map Sum.inl) = s := by
  intro s
  induction s with
  | nil => rfl
  | cons c cs ih => simp [renderSegs, ih]

theorem renderSegsM_map_inl {π : Type} (f : π → Except JsErr (List Char)) :
    ∀ s : List Char, renderSegsM f (s.map Sum.inl) = .ok s := by
  intro s
  induction s with
  | nil => rfl
  | cons c cs ih => simp [renderSegsM, ih, Except.bind]

/-! ## Suffix propagation for the match tests -/

theorem dropLit_suffix {lit s r : List Char} (h : dropLit lit s = some r) :
    r <:+ s :=
  suffix_of_decomp (dropLit_some_eq lit s r h)

theorem spanP_suffix {p : Char → Bool} {s : List Char} : (spanP p s).2 <:+ s := by
  rw [spanP]
  exact suffix_of_decomp (List.takeWhile_append_dropWhile (p := p) (l := s)).symm

theorem chainGo_decomp :
    ∀ (n : Nat) (s : List Char) (flag : Bool) (t r : List Char),
      s.length ≤ n → chainGo flag s = (t, r) → s = t ++ r := by
  intro n
  induction n with
  | zero =>
    intro s flag t r hlen h
    have hs : s = [] := List.length_eq_zero.mp (Nat.le_zero.mp hlen)
    subst hs
    cases flag <;> simp_all [chainGo]
  | succ n ih =>
    intro s flag t r hlen h
    cases s with
    | nil => cases flag <;> simp_all [chainGo]
    | cons c cs =>
      by_cases hw : isWordChar c = true
      · rw [chainGo_cons_word hw] at h
        cases hg : chainGo true cs with
        | mk t2 r2 =>
          rw [hg] at h
          injection h with h1 h2
          subst h1
          subst h2
          have hcs := ih cs true t2 r2 (by simp at hlen; omega) hg
          simp [hcs]
      · have hw' : isWordChar c = false := by simpa using hw
        cases flag with
        | false =>
          have hng : chainGo false (c :: cs) = ([], c :: cs) := by
            cases cs <;> simp [chainGo, hw']
          rw [hng] at h
          injection h with h1 h2
          subst h1
          subst h2
          rfl
        | true =>
          by_cases hdot : c = '.'
          · cases cs with
            | nil =>
              have hone : chainGo true [c] = ([], [c]) := by simp [chainGo, hw']
              rw [hone] at h
              injection h with h1 h2
              subst h1
              subst h2
              rfl
            | cons d ds =>
              by_cases hd : isWordChar d = true
              · rw [chainGo_cons_dot hw' hdot hd] at h
                cases hg : chainGo true ds with
                | mk t2 r2 =>
                  rw [hg] at h
                  injection h with h1 h2
                  subst h1
                  subst h2
                  have hds := ih ds true t2 r2 (by simp at hlen; omega) hg
                  simp [hds]
              · have hd' : isWordChar d = false := by simpa using hd
                subst hdot
                have hng : chainGo true ('.' :: d :: ds) = ([], '.' :: d :: ds) := by
                  simp [chainGo, hw', hd']
                rw [hng] at h
                injection h with h1 h2
                subst h1
                subst h2
                rfl
          · have hng := chainGo_stop (s := c :: cs) ⟨hw', hdot⟩ true
            rw [hng] at h
            injection h with h1 h2
            subst h1
            subst h2
            rfl

theorem parseChain_suffix {s w r : List Char} (h : parseChain s = some (w, r)) :
    r <:+ s := by
  obtain ⟨hg, _⟩ := parseChain_some h
  exact suffix_of_decomp (chainGo_decomp s.length s false w r le_rfl hg)

/-! ## Canonical construct forms

The exact character shapes of the constructs the claims quantify over,
written right-nested so that the matchers consume them step by step. -/

/-- `{{#each p}}C{{/each}}`. -/
def eachBlock (p C : List Char) : List Char :=
  eachOpenLit ++ (' ' :: (p ++ (bbClose ++ (C ++ eachCloseLit))))

/-- `{{#if p}}X{{/if}}`. -/
def ifBlock (p X : List Char) : List Char :=
  ifOpenLit ++ (' ' :: (p ++ (bbClose ++ (X ++ ifCloseLit))))

/-- `{{#if p}}X{{else}}Y{{/if}}`. -/
def ifElseBlock (p X Y : List Char) : List Char :=
  ifOpenLit ++ (' ' :: (p ++ (bbClose ++ (X ++ (elseLit ++ (Y ++ ifCloseLit))))))

/-- `{{p}}`. -/
def varRef (p : List Char) : List Char :=
  bbOpen ++ (p ++ bbClose)

/-- `{{name args}}` (single separating space). -/
def helperCall (name args : List Char) : List Char :=
  bbOpen ++ (name ++ (' ' :: (args ++ bbClose)))

/-- The closing braces can extend no path chain. -/
theorem chainStop_bbClose (X : List Char) : ChainStop (bbClose ++ X) := by
  have h : bbClose ++ X = '\x7d' :: ('\x7d' :: X) := rfl
  rw [h]
  exact ⟨by decide, by decide⟩

/-- A single space is a whitespace run; a path head stops it. -/
theorem spanSpace_one (rest : List Char) {p : List Char} (hp : PathOk p) :
    spanP jsSpace (' ' :: (p ++ rest)) = ([' '], p ++ rest) := by
  obtain ⟨c, cs, hpc, hcw⟩ := pathOk_head hp
  have := spanP_append (p := jsSpace) (a := [' ']) (b := p ++ rest)
    (by intro x hx; simp at hx; subst hx; decide)
    (by rw [hpc]; exact word_not_space hcw)
  simpa using this

/-! ## Success of the matchers on exact constructs -/

theorem tryLoopAt_block {p C : List Char} (hp : PathOk p)
    (hC : splitFirst eachCloseLit (C ++ eachCloseLit) = some (C, [])) :
    tryLoopAt (eachBlock p C) = some ((p, C), []) := by
  have hsp := spanSpace_one (bbClose ++ (C ++ eachCloseLit)) hp
  have hpp : parseChain (p ++ (bbClose ++ (C ++ eachCloseLit)))
      = some (p, bbClose ++ (C ++ eachCloseLit)) :=
    pathOk_parse hp (chainStop_bbClose (C ++ eachCloseLit))
  simp [tryLoopAt, eachBlock, dropLit_self, hsp, hpp, hC, Option.bind]

theorem tryIfAt_block {p X : List Char} (hp : PathOk p)
    (hX : splitFirst ifCloseLit (X ++ ifCloseLit) = some (X, [])) :
    tryIfAt (ifBlock p X) = some ((p, X), []) := by
  have hsp := spanSpace_one (bbClose ++ (X ++ ifCloseLit)) hp
  have hpp : parseChain (p ++ (bbClose ++ (X ++ ifCloseLit)))
      = some (p, bbClose ++ (X ++ ifCloseLit)) :=
    pathOk_parse hp (chainStop_bbClose (X ++ ifCloseLit))
  simp [tryIfAt, ifBlock, dropLit_self, hsp, hpp, hX, Option.bind]

theorem tryIfElseAt_block {p X Y : List Char} (hp : PathOk p)
    (hX : splitFirst elseLit (X ++ (elseLit ++ (Y ++ ifCloseLit)))
      = some (X, Y ++ ifCloseLit))
    (hY : splitFirst ifCloseLit (Y ++ ifCloseLit) = some (Y, [])) :
    tryIfElseAt (ifElseBlock p X Y) = some ((p, X, Y), []) := by
  have hsp := spanSpace_one (bbClose ++ (X ++ (elseLit ++ (Y ++ ifCloseLit)))) hp
  have hpp : parseChain (p ++ (bbClose ++ (X ++ (elseLit ++ (Y ++ ifCloseLit)))))
      = some (p, bbClose ++ (X ++ (elseLit ++ (Y ++ ifCloseLit)))) :=
    pathOk_parse hp (chainStop_bbClose (X ++ (elseLit ++ (Y ++ ifCloseLit))))
  simp [tryIfElseAt, ifElseBlock, dropLit_self, hsp, hpp, hX, hY, Option.bind]

theorem tryVarAt_ref {p : List Char} (hp : PathOk p) :
    tryVarAt (varRef p) = some (p, []) := by
  have hpp : parseChain (p ++ bbClose) = some (p, bbClose) :=
    pathOk_parse hp (by simpa using chainStop_bbClose [])
  have hcl : dropLit bbClose bbClose = some [] := by
    simpa using dropLit_self bbClose []
  simp [tryVarAt, varRef, dropLit_self, hpp, hcl, Option.bind]

theorem tryHelperAt_call {name args : List Char}
    (hn : name ≠ []) (hnw : ∀ c ∈ name, isWordChar c = true)
    (ha : args ≠ []) (haw : ∀ c ∈ args, c ≠ '\x7d')
    (hhead : HeadNot jsSpace args) :
    tryHelperAt (helperCall name args)
      = some ((name, args, helperCall name args), []) := by
  have hspn : spanP isWordChar (name ++ (' ' :: (args ++ bbClose)))
      = (name, ' ' :: (args ++ bbClose)) :=
    spanP_append hnw (by exact (by decide : isWordChar ' ' = false))
  have hsps : spanP jsSpace (' ' :: (args ++ bbClose))
      = ([' '], args ++ bbClose) := by
    have hb : HeadNot jsSpace (args ++ bbClose) := by
      cases args with
      | nil => exact absurd rfl ha
      | cons a as => exact hhead
    have := spanP_append (p := jsSpace) (a := [' ']) (b := args ++ bbClose)
      (by intro x hx; simp at hx; subst hx; decide) hb
    simpa using this
  have hspa : spanP notCloseBrace (args ++ bbClose) = (args, bbClose) := by
    apply spanP_append
    · intro c hc
      simpa [notCloseBrace] using haw c hc
    · have hb : bbClose = '\x7d' :: ('\x7d' :: []) := rfl
      rw [hb]
      simp [HeadNot, notCloseBrace]
  have hcl : dropLit bbClose bbClose = some [] := by
    simpa using dropLit_self bbClose []
  simp [tryHelperAt, helperCall, dropLit_self, hspn, hsps, hspa, hn, ha, hcl,
    Option.bind]

/-! ## The if/else matcher never fires without an `{{else}}` -/

theorem tryIfElseAt_no_else {t : List Char} (h : splitFirst elseLit t = none) :
    ∀ s2 : List Char, s2 <:+ t → tryIfElseAt s2 = none := by
  intro s2 hs2
  unfold tryIfElseAt
  cases h0 : dropLit ifOpenLit s2 with
  | none => rfl
  | some r0 =>
    by_cases hws : (spanP jsSpace r0).1 = []
    · simp [Option.bind, hws]
    · have hr1 : (spanP jsSpace r0).2 <:+ t :=
        spanP_suffix.trans ((dropLit_suffix h0).trans hs2)
      cases h1 : parseChain (spanP jsSpace r0).2 with
      | none => simp [Option.bind, hws, h1]
      | some pr =>
        cases pr with
        | mk pp rr =>
          have hr2 : rr <:+ t := (parseChain_suffix h1).trans hr1
          cases h3 : dropLit bbClose rr with
          | none => simp [Option.bind, hws, h1, h3]
          | some r3 =>
            have hr3 : r3 <:+ t := (dropLit_suffix h3).trans hr2
            have h4 := splitFirst_none_suffix h hr3
            simp [Option.bind, hws, h1, h3, h4]

/-! ## Evaluation infrastructure for concrete instances -/

instance {ε α : Type} [DecidableEq ε] [DecidableEq α] :
    DecidableEq (Except ε α) := fun a b =>
  match a, b with
  | .ok x, .ok y =>
    if h : x = y then .isTrue (by rw [h])
    else .isFalse (fun hh => h (by cases hh; rfl))
  | .error x, .error y =>
    if h : x = y then .isTrue (by rw [h])
    else .isFalse (fun hh => h (by cases hh; rfl))
  | .ok _, .error _ => .isFalse (fun hh => Except.noConfusion hh)
  | .error _, .ok _ => .isFalse (fun hh => Except.noConfusion hh)

/-- A fresh evaluator with empty registries, as concrete instances use it.
(The constructor's five default helpers are irrelevant to every settled
claim; the claims about helpers quantify over the registry.) -/
def engineEmpty : TemplateEngine := ⟨[], []⟩

theorem tryLoopAt_nil : tryLoopAt [] = none := rfl
theorem tryIfAt_nil : tryIfAt [] = none := rfl
theorem tryIfElseAt_nil : tryIfElseAt [] = none := rfl
theorem tryVarAt_nil : tryVarAt [] = none := rfl
theorem tryHelperAt_nil : tryHelperAt [] = none := rfl

/-- Without an `{{else}}` literal anywhere, the if/else sub-pass is the
identity. -/
theorem ifElsePass_id {rec : Rec} {d : JSValue} {t : List Char}
    (h : splitFirst elseLit t = none) : ifElsePass rec d t = .ok t := by
  unfold ifElsePass scanAll
  rw [scanGF_all_inl t (tryIfElseAt_no_else h) (t.length + 1)]
  exact renderSegsM_map_inl _ t

/-! ## Claim C1 -/

/-- Claim C1 fails on the code: rendering the loop block
`{{#each items}}{{this.name}}{{/each}}` over the context
`{items: [null]}` throws a `TypeError` — the current-item property
shortcut evaluates `item[prop]` with no null guard — where the claim
requires every missing-path construct, for every sequence element
including null, to degrade to empty output without throwing. -/
theorem c1_null_item_throws :
    render 5 engineEmpty
      ("\x7b\x7b#each items\x7d\x7d\x7b\x7bthis.name\x7d\x7d\x7b\x7b/each\x7d\x7d")
      (JSValue.obj [("items", JSValue.arr [JSValue.null])])
    = .error .typeError := by decide

/-! ## Claim C2 -/

/-- Modelled from the claim's words (C2): the loop-block rendering the claim
describes — the full four-pass pipeline applied to the RAW inner content
under each iteration scope, concatenated in element order, with no prior
textual current-item substitution. -/
def c2ClaimedLoopRender (fuel : Nat) (e : TemplateEngine) (d : JSValue)
    (p C : List Char) : Except JsErr (List Char) :=
  match getValueByPathL d p with
  | .arr items => do
    let outs ← items.enum.mapM
      (fun ie =>
        match ie with
        | (i, item) => processTemplate fuel e (mkScope d item i items.length) C)
    pure outs.flatten
  | _ => .ok []

/-- Claim C2 as stated is false at `{items: [null]}` with inner content
`{{this}}`: the engine first substitutes the serialised item textually, so
the block renders `null`, while the claimed concatenation of the pipeline
over the raw inner content renders the empty string (`{{this}}` resolved
through the scope is a null value, which the variable pass blanks). -/
theorem c2_counterexample :
    processLoops (fun d2 t2 => processTemplate 5 engineEmpty d2 t2)
        (JSValue.obj [("items", JSValue.arr [JSValue.null])])
        (eachBlock (("items").toList) thisLit) = .ok (("null").toList)
    ∧ c2ClaimedLoopRender 5 engineEmpty
        (JSValue.obj [("items", JSValue.arr [JSValue.null])])
        (("items").toList) thisLit = .ok []
    ∧ processLoops (fun d2 t2 => processTemplate 5 engineEmpty d2 t2)
        (JSValue.obj [("items", JSValue.arr [JSValue.null])])
        (eachBlock (("items").toList) thisLit)
      ≠ c2ClaimedLoopRender 5 engineEmpty
        (JSValue.obj [("items", JSValue.arr [JSValue.null])])
        (("items").toList) thisLit :=
  ⟨by decide, by decide, by decide⟩

/-- Claim C2, amended: for every context and every loop block with a
well-formed dotted path and the matching (first) closing marker ending its
body, a non-sequence value at the path renders the block empty, and a
sequence of length `n` renders the concatenation, in element order, of the
full four-pass pipeline applied to the inner content — after the
current-item references `{{this.x}}` and `{{this}}` in it are textually
substituted from the element — under a loop scope extending a shallow copy
of the context with the item, the zero-based index, and the first/last
flags, so the inner pipeline runs exactly once per element; for `n = 1`
the single scope carries both flags true simultaneously. -/
theorem c2_loop_block (fuel : Nat) (e : TemplateEngine) (d : JSValue)
    (p C : List Char) (hp : PathOk p)
    (hC : splitFirst eachCloseLit (C ++ eachCloseLit) = some (C, [])) :
    (processLoops (fun d2 t2 => processTemplate fuel e d2 t2) d (eachBlock p C) =
      match getValueByPathL d p with
      | .arr items => do
        let outs ← items.enum.mapM
          (fun ie =>
            match ie with
            | (i, item) => do
              let c1 ← replaceThisProps item C
              let c2 := replaceThisLit
                ((if typeofIsObject item then jsonStr item else jsToString item)).toList c1
              processTemplate fuel e (mkScope d item i items.length) c2)
        pure outs.flatten
      | _ => .ok [])
    ∧ ∀ item : JSValue,
      getProp (mkScope d item 0 1) ("@first") = .bool true ∧
      getProp (mkScope d item 0 1) ("@last") = .bool true := by
  constructor
  · unfold processLoops
    rw [scanAll_single (tryLoopAt_block hp hC) tryLoopAt_nil, renderSegsM_single]
    rfl
  · intro item
    exact ⟨rfl, rfl⟩

theorem c2_loop_block_witness :
    PathOk (("items").toList)
    ∧ splitFirst eachCloseLit ((("x,").toList) ++ eachCloseLit)
        = some ((("x,").toList), [])
    ∧ processLoops (fun d2 t2 => processTemplate 5 engineEmpty d2 t2)
        (JSValue.obj [("items", JSValue.arr [JSValue.num 1, JSValue.num 2])])
        (eachBlock (("items").toList) (("x,").toList)) = .ok (("x,x,").toList) :=
  ⟨by decide, by decide,
    ((c2_loop_block 5 engineEmpty
        (JSValue.obj [("items", JSValue.arr [JSValue.num 1, JSValue.num 2])])
        (("items").toList) (("x,").toList) (by decide) (by decide)).1).trans
      (by decide)⟩

/-! ## Claim C3 -/

/-- Claim C3 as stated is false at the if/else block
`{{#if a}}x{{else}}{{v}}{{/if}}` over `{v: "{{#if b}}z{{/if}}"}` (with `a`
absent, hence falsy): the recursively pipeline-processed else branch is the
leftover text `{{#if b}}z{{/if}}`, but the conditional pass re-scans the
branch output with the bare-if regex and renders the construct empty. -/
theorem c3_counterexample :
    processConditionals (fun d2 t2 => processTemplate 5 engineEmpty d2 t2)
        (JSValue.obj [("v", JSValue.str ("\x7b\x7b#if b\x7d\x7dz\x7b\x7b/if\x7d\x7d"))])
        (ifElseBlock (("a").toList) (("x").toList) (("\x7b\x7bv\x7d\x7d").toList))
      = .ok []
    ∧ processTemplate 5 engineEmpty
        (JSValue.obj [("v", JSValue.str ("\x7b\x7b#if b\x7d\x7dz\x7b\x7b/if\x7d\x7d"))])
        (("\x7b\x7bv\x7d\x7d").toList)
      = .ok (("\x7b\x7b#if b\x7d\x7dz\x7b\x7b/if\x7d\x7d").toList)
    ∧ processConditionals (fun d2 t2 => processTemplate 5 engineEmpty d2 t2)
        (JSValue.obj [("v", JSValue.str ("\x7b\x7b#if b\x7d\x7dz\x7b\x7b/if\x7d\x7d"))])
        (ifElseBlock (("a").toList) (("x").toList) (("\x7b\x7bv\x7d\x7d").toList))
      ≠ processTemplate 5 engineEmpty
        (JSValue.obj [("v", JSValue.str ("\x7b\x7b#if b\x7d\x7dz\x7b\x7b/if\x7d\x7d"))])
        (("\x7b\x7bv\x7d\x7d").toList) :=
  ⟨by decide, by decide, by decide⟩

/-- Claim C3, amended: a falsy path renders the if-only form empty and the
if/else form as the recursively pipeline-processed else branch, a truthy
path renders the recursively pipeline-processed then branch against the
same context — except that the if/else form's branch output is additionally
re-scanned by the bare-if sub-pass (the second conditional regex runs over
the whole string produced by the first), while the if-only form's branch
output is spliced in untouched. -/
theorem c3_conditional_blocks :
    (∀ (fuel : Nat) (e : TemplateEngine) (d : JSValue) (p X : List Char),
      PathOk p →
      splitFirst elseLit (ifBlock p X) = none →
      splitFirst ifCloseLit (X ++ ifCloseLit) = some (X, []) →
      processConditionals (fun d2 t2 => processTemplate fuel e d2 t2) d
          (ifBlock p X)
        = if truthy (getValueByPathL d p) then processTemplate fuel e d X
          else .ok [])
    ∧ (∀ (fuel : Nat) (e : TemplateEngine) (d : JSValue) (p X Y : List Char),
      PathOk p →
      splitFirst elseLit (X ++ (elseLit ++ (Y ++ ifCloseLit)))
        = some (X, Y ++ ifCloseLit) →
      splitFirst ifCloseLit (Y ++ ifCloseLit) = some (Y, []) →
      processConditionals (fun d2 t2 => processTemplate fuel e d2 t2) d
          (ifElseBlock p X Y)
        = (if truthy (getValueByPathL d p) then processTemplate fuel e d X
           else processTemplate fuel e d Y) >>=
            ifPass (fun d2 t2 => processTemplate fuel e d2 t2) d) := by
  constructor
  · intro fuel e d p X hp hnoelse hX
    unfold processConditionals
    rw [ifElsePass_id hnoelse]
    show ifPass (fun d2 t2 => processTemplate fuel e d2 t2) d (ifBlock p X) = _
    unfold ifPass
    rw [scanAll_single (tryIfAt_block hp hX) tryIfAt_nil, renderSegsM_single]
    rfl
  · intro fuel e d p X Y hp hX hY
    unfold processConditionals ifElsePass
    rw [scanAll_single (tryIfElseAt_block hp hX hY) tryIfElseAt_nil,
      renderSegsM_single]

theorem c3_conditional_blocks_witness :
    PathOk (("active").toList)
    ∧ splitFirst elseLit (ifBlock (("active").toList) (("Yes").toList)) = none
    ∧ splitFirst ifCloseLit ((("Yes").toList) ++ ifCloseLit)
        = some ((("Yes").toList), [])
    ∧ processConditionals (fun d2 t2 => processTemplate 5 engineEmpty d2 t2)
        (JSValue.obj [("active", JSValue.bool true)])
        (ifBlock (("active").toList) (("Yes").toList)) = .ok (("Yes").toList) :=
  ⟨by decide, by decide, by decide,
    (c3_conditional_blocks.1 5 engineEmpty
        (JSValue.obj [("active", JSValue.bool true)])
        (("active").toList) (("Yes").toList)
        (by decide) (by decide) (by decide)).trans (by decide)⟩

/-! ## Claim C4 -/

/-- Claim C4: in the variable-substitution pass, a double-brace construct
holding a dotted identifier path is replaced, for every context, by the
empty string when the path resolves to `null` or `undefined`, by the JSON
serialisation when it resolves to an array or object, and by plain string
conversion of the value otherwise. -/
theorem c4_variable_subst (d : JSValue) (p : List Char) (hp : PathOk p) :
    processVariables d (varRef p) =
      match getValueByPathL d p with
      | .undefined => []
      | .null => []
      | .arr xs => (jsonStr (.arr xs)).toList
      | .obj es => (jsonStr (.obj es)).toList
      | v => (jsToString v).toList := by
  unfold processVariables
  rw [scanAll_single (tryVarAt_ref hp) tryVarAt_nil, renderSegs_single]
  obtain ⟨c, cs, hpc, hcw⟩ := pathOk_head hp
  obtain ⟨h1, h2⟩ := word_not_marker hcw
  rw [hpc]
  have hany : ((c :: cs).head?.any (fun x => x = '#' || x = '/')) = false := by
    simp [h1, h2]
  simp only [hany, Bool.false_eq_true, if_false]
  cases getValueByPathL d (c :: cs) <;> rfl

theorem c4_variable_subst_witness :
    PathOk (("user.name").toList)
    ∧ processVariables
        (JSValue.obj [("user", JSValue.obj [("name", JSValue.str ("Ada"))])])
        (varRef (("user.name").toList)) = (("Ada").toList) :=
  ⟨by decide,
    (c4_variable_subst
        (JSValue.obj [("user", JSValue.obj [("name", JSValue.str ("Ada"))])])
        (("user.name").toList) (by decide)).trans (by decide)⟩

/-! ## Claim C5 -/

/-- Claim C5: for a template string that is not a registered template name,
the compiled render function agrees with direct rendering on every data
context: `compile(t)(d) = render(t, d)`. -/
theorem c5_compile_render (fuel : Nat) (e : TemplateEngine) (t : String)
    (d : JSValue) (h : assocFind e.templates t = none) :
    render fuel e t d = compile t e fuel d := by
  unfold render compile
  rw [h]

theorem c5_compile_render_witness :
    assocFind engineEmpty.templates ("A\x7b\x7bz\x7d\x7dB") = none
    ∧ render 5 engineEmpty ("A\x7b\x7bz\x7d\x7dB") (JSValue.obj []) =
      compile ("A\x7b\x7bz\x7d\x7dB") engineEmpty 5 (JSValue.obj []) :=
  ⟨rfl,
    c5_compile_render 5 engineEmpty ("A\x7b\x7bz\x7d\x7dB") (JSValue.obj [])
      rfl⟩

/-! ## Claim C6 -/

instance (p : Char → Bool) (l : List Char) : Decidable (HeadNot p l) :=
  match l with
  | [] => .isTrue trivial
  | c :: _ => (inferInstance : Decidable (p c = false))

/-- Claim C6: in the helper-invocation pass, a construct of the form
identifier-plus-whitespace-separated-argument-list whose identifier is not
in the helper registry is left completely unmodified — its own literal
text, neither blanked nor an error. -/
theorem c6_unknown_helper (e : TemplateEngine) (d : JSValue)
    (name args : List Char)
    (hn : name ≠ []) (hnw : ∀ c ∈ name, isWordChar c = true)
    (ha : args ≠ []) (haw : ∀ c ∈ args, c ≠ '\x7d')
    (hhead : HeadNot jsSpace args)
    (hlook : assocFind e.helpers (String.mk name) = none) :
    processHelpers e d (helperCall name args) = helperCall name args := by
  unfold processHelpers
  rw [scanAll_single (tryHelperAt_call hn hnw ha haw hhead) tryHelperAt_nil,
    renderSegs_single]
  simp [hlook]

theorem c6_unknown_helper_witness :
    (("unknownHelper").toList ≠ [])
    ∧ (∀ c ∈ (("unknownHelper").toList), isWordChar c = true)
    ∧ (("a b").toList ≠ [])
    ∧ (∀ c ∈ (("a b").toList), c ≠ '\x7d')
    ∧ HeadNot jsSpace (("a b").toList)
    ∧ assocFind engineEmpty.helpers (String.mk (("unknownHelper").toList)) = none
    ∧ processHelpers engineEmpty (JSValue.obj [])
        (helperCall (("unknownHelper").toList) (("a b").toList))
      = helperCall (("unknownHelper").toList) (("a b").toList) :=
  ⟨by decide, by decide, by decide, by decide, by decide, rfl,
    c6_unknown_helper engineEmpty (JSValue.obj [])
      (("unknownHelper").toList) (("a b").toList)
      (by decide) (by decide) (by decide) (by decide) (by decide) rfl⟩

/-! ## Claim C7 -/

/-- A token in the shape the claim describes: non-empty and either a run of
plain (non-space, non-quote) characters, or one complete double-quoted
span (which may contain spaces). -/
def SimpleToken (t : List Char) : Prop :=
  t ≠ [] ∧
  ((∀ c ∈ t, tokUnitChar c = true) ∨
   (t.head? = some '"' ∧ t.getLast? = some '"' ∧ 2 ≤ t.length ∧
    ∀ c ∈ (t.drop 1).dropLast, notQuote c = true))

instance (t : List Char) : Decidable (SimpleToken t) := by
  unfold SimpleToken; infer_instance

/-- The separator-aware join of a token list with single spaces. -/
def sepJoin : List (List Char) → List Char
  | [] => []
  | [t] => t
  | t :: t2 :: ts => t ++ (' ' :: sepJoin (t2 :: ts))

/-- What may legally follow a token for the lexer to stop: nothing, or a
whitespace character. -/
def SpaceSep : List Char → Prop
  | [] => True
  | c :: _ => jsSpace c = true

theorem quoted_decomp {t : List Char} (h1 : t.head? = some '"')
    (h2 : t.getLast? = some '"') (h3 : 2 ≤ t.length) :
    t = '"' :: (((t.drop 1).dropLast) ++ ['"']) := by
  cases t with
  | nil => simp at h1
  | cons c cs =>
    simp at h1
    subst h1
    rcases List.eq_nil_or_concat cs with rfl | ⟨as, a, rfl⟩
    · simp at h3
    · simp only [List.concat_eq_append] at h2 h3 ⊢
      have hla : ('"' :: (as ++ [a])).getLast? = some a := by
        rw [show ('"' :: (as ++ [a])) = ('"' :: as) ++ [a] from by simp]
        exact List.getLast?_concat _
      rw [hla] at h2
      simp at h2
      subst h2
      simp [List.dropLast_concat]

theorem simpleToken_head_nospace {c : Char} {cs : List Char}
    (h : SimpleToken (c :: cs)) : jsSpace c = false ∧ c ≠ '"' ∨ c = '"' := by
  obtain ⟨_, hcase⟩ := h
  cases hcase with
  | inl hunq =>
    have := hunq c (by simp)
    simp [tokUnitChar, Bool.and_eq_true] at this
    exact Or.inl ⟨this.1, this.2⟩
  | inr hq =>
    have := hq.1
    simp at this
    exact Or.inr this

/-- One lexer step: a simple token followed by nothing or whitespace is
grabbed whole, with the rest untouched. -/
theorem grabTokF_token (tok rest : List Char) (ht : SimpleToken tok)
    (hrest : SpaceSep rest) :
    ∀ fuel, 2 ≤ fuel → grabTokF fuel (tok ++ rest) = (tok, rest) := by
  intro fuel hfuel
  obtain ⟨n2, rfl⟩ : ∃ n2, fuel = n2 + 2 := ⟨fuel - 2, by omega⟩
  have hgr : ∀ m, grabTokF (m + 1) rest = ([], rest) := by
    intro m
    cases rest with
    | nil => rfl
    | cons r rs =>
      have hr : jsSpace r = true := hrest
      simp [grabTokF, hr]
  obtain ⟨hne, hcase⟩ := ht
  cases hcase with
  | inl hunq =>
    cases tok with
    | nil => exact absurd rfl hne
    | cons c cs =>
      have hc := hunq c (by simp)
      have hc2 : jsSpace c = false ∧ c ≠ '"' := by
        simpa [tokUnitChar, Bool.and_eq_true] using hc
      have hspan : spanP tokUnitChar ((c :: cs) ++ rest) = (c :: cs, rest) := by
        apply spanP_append hunq
        cases rest with
        | nil => trivial
        | cons r rs =>
          have hr : jsSpace r = true := hrest
          simp [HeadNot, tokUnitChar, hr]
      show grabTokF (n2 + 2) (c :: (cs ++ rest)) = (c :: cs, rest)
      have hshape : c :: (cs ++ rest) = (c :: cs) ++ rest := rfl
      rw [show (n2 + 2) = (n2 + 1) + 1 from rfl]
      simp only [grabTokF, hc2.1, Bool.false_eq_true, if_false, hc2.2,
        hshape, hspan, hgr]
      simp
  | inr hq =>
    obtain ⟨hh, hl, hlen, hmid⟩ := hq
    have hdec := quoted_decomp hh hl hlen
    simp only [List.drop_one] at hdec hmid
    rw [hdec]
    have hspan : spanP notQuote ((tok.tail.dropLast) ++ ('"' :: rest))
        = (tok.tail.dropLast, '"' :: rest) := by
      apply spanP_append hmid
      simp [HeadNot, notQuote]
    show grabTokF (n2 + 2)
        ('"' :: (((tok.tail.dropLast) ++ ['"']) ++ rest))
      = ('"' :: ((tok.tail.dropLast) ++ ['"']), rest)
    have hshape : ((tok.tail.dropLast) ++ ['"']) ++ rest
        = (tok.tail.dropLast) ++ ('"' :: rest) := by simp
    rw [show (n2 + 2) = (n2 + 1) + 1 from rfl]
    simp [grabTokF, hshape, hspan, hgr,
      (by decide : jsSpace ('"' : Char) = false)]

theorem tokenizeF_empty (m : Nat) : tokenizeF m [] = [] := by
  cases m <;> rfl

/-- The lexer splits a space-joined list of simple tokens back into exactly
those tokens. -/
theorem tokenizeF_join :
    ∀ (toks : List (List Char)) (fuel : Nat),
      (∀ t ∈ toks, SimpleToken t) → (sepJoin toks).length < fuel →
      tokenizeF fuel (sepJoin toks) = toks := by
  intro toks
  induction toks with
  | nil =>
    intro fuel _ hlen
    obtain ⟨m, rfl⟩ : ∃ m, fuel = m + 1 := ⟨fuel - 1, by omega⟩
    rfl
  | cons t ts ih =>
    intro fuel h hlen
    have hst := h t (by simp)
    have hne : t ≠ [] := hst.1
    cases t with
    | nil => exact absurd rfl hne
    | cons c cs =>
      have hspc : jsSpace c = false := by
        rcases simpleToken_head_nospace hst with ⟨h1, _⟩ | hq
        · exact h1
        · subst hq; decide
      cases ts with
      | nil =>
        have hlen3 : cs.length + 1 < fuel := by
          simpa [sepJoin] using hlen
        obtain ⟨m, rfl⟩ : ∃ m, fuel = m + 1 := ⟨fuel - 1, by omega⟩
        have hgrab : grabTokF (cs.length + 1 + 1) (c :: cs) = (c :: cs, []) := by
          have := grabTokF_token (c :: cs) [] hst trivial
            (cs.length + 1 + 1) (by omega)
          simpa using this
        show tokenizeF (m + 1) (sepJoin [c :: cs]) = [c :: cs]
        simp [sepJoin, tokenizeF, hspc, hgrab, tokenizeF_empty]
      | cons t2 ts2 =>
        have hJ : sepJoin ((c :: cs) :: t2 :: ts2)
            = (c :: cs) ++ (' ' :: sepJoin (t2 :: ts2)) := rfl
        have hlen2 : cs.length + 1 + 1 + (sepJoin (t2 :: ts2)).length < fuel := by
          rw [hJ] at hlen
          simp at hlen
          omega
        obtain ⟨m2, rfl⟩ : ∃ m2, fuel = m2 + 2 := ⟨fuel - 2, by omega⟩
        have hgrab : grabTokF (((c :: cs) ++ (' ' :: sepJoin (t2 :: ts2))).length + 1)
            ((c :: cs) ++ (' ' :: sepJoin (t2 :: ts2)))
            = (c :: cs, ' ' :: sepJoin (t2 :: ts2)) := by
          apply grabTokF_token _ _ hst
          · exact (by decide : jsSpace ' ' = true)
          · simp
        have hrec := ih m2 (fun x hx => h x (by simp [hx])) (by omega)
        show tokenizeF (m2 + 1 + 1) (sepJoin ((c :: cs) :: t2 :: ts2))
          = (c :: cs) :: t2 :: ts2
        rw [hJ, List.cons_append]
        simp only [tokenizeF, hspc, Bool.false_eq_true, if_false]
        rw [← List.cons_append, hgrab]
        simp only [List.cons_ne_nil, if_false, if_neg]
        have hsp2 : tokenizeF (m2 + 1) (' ' :: sepJoin (t2 :: ts2))
            = tokenizeF m2 (sepJoin (t2 :: ts2)) := by
          simp [tokenizeF, (by decide : jsSpace ' ' = true)]
        rw [hsp2, hrec]

theorem tokenizeArgs_join (toks : List (List Char))
    (h : ∀ t ∈ toks, SimpleToken t) : tokenizeArgs (sepJoin toks) = toks :=
  tokenizeF_join toks ((sepJoin toks).length + 1) h (by omega)

/-- Claim C7: helper-argument parsing splits the raw text on whitespace
with double-quoted spans as single tokens, and classifies each token with
the stated precedence — enclosing quotes stripped first, then the literals
`true`/`false`, then any numeric-looking token as a number (so a bare
numeric-looking token is never resolved as a data path), and only the
remaining tokens as dotted data paths against the current context. -/
theorem c7_helper_args :
    ∀ d : JSValue,
      (∀ toks : List (List Char), (∀ t ∈ toks, SimpleToken t) →
        parseHelperArgs d (sepJoin toks) = toks.map (classifyArg d))
      ∧ (∀ t : List Char, t.head? = some '"' → t.getLast? = some '"' →
          classifyArg d t = .str (String.mk ((t.drop 1).dropLast)))
      ∧ (∀ t : List Char, ¬(t.head? = some '"' ∧ t.getLast? = some '"') →
          t ≠ ("true").toList → t ≠ ("false").toList →
          ∀ q : Rat, parseJsNumber t = some q → classifyArg d t = .num q)
      ∧ (∀ t : List Char, ¬(t.head? = some '"' ∧ t.getLast? = some '"') →
          t ≠ ("true").toList → t ≠ ("false").toList →
          parseJsNumber t = none → classifyArg d t = getValueByPathL d t)
      ∧ classifyArg d (("true").toList) = .bool true
      ∧ classifyArg d (("false").toList) = .bool false := by
  intro d
  refine ⟨?_, ?_, ?_, ?_, rfl, rfl⟩
  · intro toks h
    unfold parseHelperArgs
    rw [tokenizeArgs_join toks h]
  · intro t h1 h2
    simp [classifyArg, h1, h2]
  · intro t hq ht hf q hn
    simp at ht hf
    simp [classifyArg, hq, ht, hf, hn]
  · intro t hq ht hf hn
    simp at ht hf
    simp [classifyArg, hq, ht, hf, hn]

theorem c7_helper_args_witness :
    (∀ t ∈ [("\"a b\"").toList, ("true").toList, ("42").toList,
        ("x.y").toList], SimpleToken t)
    ∧ parseHelperArgs (JSValue.obj [("x", JSValue.obj [("y", JSValue.num 7)])])
        (sepJoin [("\"a b\"").toList, ("true").toList, ("42").toList,
          ("x.y").toList])
      = [JSValue.str ("a b"), JSValue.bool true, JSValue.num 42, JSValue.num 7]
    ∧ parseJsNumber (("42").toList) = some 42
    ∧ classifyArg (JSValue.obj [("42", JSValue.str ("shadowed"))])
        (("42").toList) = JSValue.num 42 :=
  ⟨by decide,
    ((c7_helper_args (JSValue.obj [("x", JSValue.obj [("y", JSValue.num 7)])])).1
      [("\"a b\"").toList, ("true").toList, ("42").toList, ("x.y").toList]
      (by decide)).trans rfl,
    by decide,
    (c7_helper_args (JSValue.obj [("42", JSValue.str ("shadowed"))])).2.2.1
      (("42").toList) (by decide) (by decide) (by decide) 42 (by decide)⟩

/-! ## Claim C8 -/

/-- Claim C8: helper lookup is late-bound.  Re-registering a helper name
after compiling leaves the registry mapping the name to the new function;
the compiled closure evaluates against the evaluator (and so its registries)
as they stand at call time, not a snapshot; and the helper pass invoked
with the re-registered evaluator applies the new function to the parsed
arguments. -/
theorem c8_late_binding (e : TemplateEngine) (hname : List Char)
    (g1 g2 : List JSValue → JSValue) (t : String) (fuel : Nat) (d : JSValue)
    (args : List Char) :
    assocFind (registerHelper (registerHelper e (String.mk hname) g1)
        (String.mk hname) g2).helpers (String.mk hname) = some g2
    ∧ compile t (registerHelper (registerHelper e (String.mk hname) g1)
        (String.mk hname) g2) fuel d
      = (processTemplate fuel
          (registerHelper (registerHelper e (String.mk hname) g1)
            (String.mk hname) g2) d t.toList).map String.mk
    ∧ (hname ≠ [] → (∀ c ∈ hname, isWordChar c = true) → args ≠ [] →
        (∀ c ∈ args, c ≠ '\x7d') → HeadNot jsSpace args →
        processHelpers (registerHelper (registerHelper e (String.mk hname) g1)
            (String.mk hname) g2) d (helperCall hname args)
          = (jsToString (g2 (parseHelperArgs d args))).toList) := by
  refine ⟨?_, rfl, ?_⟩
  · simp [registerHelper, assocFind]
  · intro hn hnw ha haw hhead
    unfold processHelpers
    rw [scanAll_single (tryHelperAt_call hn hnw ha haw hhead) tryHelperAt_nil,
      renderSegs_single]
    simp [registerHelper, assocFind]

theorem c8_late_binding_witness :
    (("shout").toList ≠ [])
    ∧ processHelpers
        (registerHelper
          (registerHelper engineEmpty (String.mk (("shout").toList))
            (fun _ => JSValue.str ("one")))
          (String.mk (("shout").toList)) (fun _ => JSValue.str ("two")))
        (JSValue.obj []) (helperCall (("shout").toList) (("x").toList))
      = (("two").toList) :=
  ⟨by decide,
    ((c8_late_binding engineEmpty (("shout").toList)
        (fun _ => JSValue.str ("one")) (fun _ => JSValue.str ("two"))
        ("ignored") 5 (JSValue.obj []) (("x").toList)).2.2
      (by decide) (by decide) (by decide) (by decide) (by decide)).trans rfl⟩

/-! ## Claim C9 -/

/-- Claim C9: the loop scope of an iteration is a fresh value extending a
shallow copy of the enclosing (object) context — every key other than the
four loop bindings looks up to exactly the context's own entry, and the
four bindings carry the item, the zero-based index, and the first/last
flags.  The no-mutation half of the claim holds by construction of the
embedding: every pass is a pure function of the template and the context,
mirroring a source that only ever reads `data` (the sole context-shaped
allocation is this per-iteration spread, discarded with the iteration). -/
theorem c9_loop_scope (es : List (String × JSValue)) (item : JSValue)
    (i len : Nat) :
    (∀ key : String, key ≠ "this" → key ≠ "@index" → key ≠ "@first" →
        key ≠ "@last" →
      getProp (mkScope (.obj es) item i len) key = getProp (.obj es) key)
    ∧ getProp (mkScope (.obj es) item i len) ("this") = item
    ∧ getProp (mkScope (.obj es) item i len) ("@index") = .num (i : Rat)
    ∧ getProp (mkScope (.obj es) item i len) ("@first") = .bool (i == 0)
    ∧ getProp (mkScope (.obj es) item i len) ("@last") = .bool (i == len - 1) := by
  refine ⟨?_, rfl, rfl, rfl, rfl⟩
  intro key h1 h2 h3 h4
  have h1b : ¬(("this" : String) = key) := fun hh => h1 hh.symm
  have h2b : ¬(("@index" : String) = key) := fun hh => h2 hh.symm
  have h3b : ¬(("@first" : String) = key) := fun hh => h3 hh.symm
  have h4b : ¬(("@last" : String) = key) := fun hh => h4 hh.symm
  simp [mkScope, getProp, assocFind, h1b, h2b, h3b, h4b, mkScope.spreadEntries]

theorem c9_loop_scope_witness :
    (("skills" : String) ≠ "this")
    ∧ (("skills" : String) ≠ "@index")
    ∧ (("skills" : String) ≠ "@first")
    ∧ (("skills" : String) ≠ "@last")
    ∧ getProp
        (mkScope (JSValue.obj [("skills", JSValue.str ("Go"))])
          (JSValue.num 1) 0 2) ("skills")
      = getProp (JSValue.obj [("skills", JSValue.str ("Go"))]) ("skills") :=
  ⟨by decide, by decide, by decide, by decide,
    (c9_loop_scope [("skills", JSValue.str ("Go"))] (JSValue.num 1) 0 2).1
      ("skills") (by decide) (by decide) (by decide) (by decide)⟩

/-! ## Claim C10 -/

/-- Claim C10: for a name registered to a structured template object, the
pipeline runs on the object's markup string only when that string is
truthy; a falsy markup (in particular the empty string) makes `render`
fall back to the whole object as markup — whose `.replace` call then
throws — so rendering such a template by name never returns the empty
string. -/
theorem c10_template_fallback (fuel : Nat) (e : TemplateEngine)
    (name : String) (entries : List (String × JSValue)) (d : JSValue)
    (hlook : assocFind e.templates name = some (.obj entries)) :
    (∀ s : String, getProp (.obj entries) ("html") = .str s → s ≠ "" →
      render fuel e name d = (processTemplate fuel e d s.toList).map String.mk)
    ∧ (truthy (getProp (.obj entries) ("html")) = false →
      render fuel e name d = .error .typeError
      ∧ render fuel e name d ≠ .ok "") := by
  constructor
  · intro s hs hne
    have htr : truthy (JSValue.str s) = true := by simp [truthy, hne]
    unfold render
    rw [hlook]
    dsimp only
    rw [show truthy (JSValue.obj entries) = true from rfl, hs, htr]
    simp
  · intro hfal
    have hre : render fuel e name d = .error .typeError := by
      unfold render
      rw [hlook]
      dsimp only
      rw [show truthy (JSValue.obj entries) = true from rfl]
      simp [hfal]
    exact ⟨hre, by rw [hre]; simp⟩

theorem c10_template_fallback_witness :
    assocFind
      (registerTemplate engineEmpty ("card")
        (.obj [("html", JSValue.str ("")), ("styles", JSValue.str ("s"))])).templates
      ("card")
      = some (.obj [("html", JSValue.str ("")), ("styles", JSValue.str ("s"))])
    ∧ truthy (getProp
        (.obj [("html", JSValue.str ("")), ("styles", JSValue.str ("s"))])
        ("html")) = false
    ∧ render 5
        (registerTemplate engineEmpty ("card")
          (.obj [("html", JSValue.str ("")), ("styles", JSValue.str ("s"))]))
        ("card") (JSValue.obj []) = .error .typeError
    ∧ render 5
        (registerTemplate engineEmpty ("card")
          (.obj [("html", JSValue.str ("")), ("styles", JSValue.str ("s"))]))
        ("card") (JSValue.obj []) ≠ .ok "" :=
  ⟨rfl, by decide,
    ((c10_template_fallback 5
        (registerTemplate engineEmpty ("card")
          (.obj [("html", JSValue.str ("")), ("styles", JSValue.str ("s"))]))
        ("card")
        [("html", JSValue.str ("")), ("styles", JSValue.str ("s"))]
        (JSValue.obj []) rfl).2 (by decide)).1,
    ((c10_template_fallback 5
        (registerTemplate engineEmpty ("card")
          (.obj [("html", JSValue.str ("")), ("styles", JSValue.str ("s"))]))
        ("card")
        [("html", JSValue.str ("")), ("styles", JSValue.str ("s"))]
        (JSValue.obj []) rfl).2 (by decide)).2⟩
